import Mathlib

/-
Formal model of the analytical core of the codemetrics repository
(src/codemetrics/core.py).  The five reporting functions operate on pandas
DataFrames; we embed them shallowly:

* A cell value is `Val`: a string, a rational number, or `na`
  (pandas NaN / missing).  Dates are rational timestamps in seconds.
* A DataFrame is a `Table`: a list of column names together with rows
  modelled as functions from column name to `Val`.  A row is only ever
  queried at names listed in `cols`; its value elsewhere is junk.
* Input tables are assumed NA-free (they come from SCM adapters); `Val.na`
  only arises as a merge artifact inside `hot_spots` and is eliminated by
  the `fillna(0.0)` that immediately follows the merge in the source.
* pandas `groupby` sorts group keys and `value_counts` sorts by count;
  the claims under study are insensitive to row order, so grouping keys are
  produced in first-occurrence order instead of sorted order.
  `drop_duplicates` keeps the first occurrence, which we model exactly.
* Float arithmetic: the only place where IEEE special values can arise in
  the source is the min-max scaling division inside `hot_spots`
  (`df /= df.max(axis=0)`), which we model with `PFloat` (NaN, ±inf or a
  finite rational); everywhere else the data is finite and exact rational
  arithmetic is faithful.
-/

namespace Codemetrics

/-- Cell value of a DataFrame: string, finite number, or missing/NaN. -/
inductive Val where
  | str : String → Val
  | num : ℚ → Val
  | na : Val
deriving DecidableEq

/-- Numeric view of a cell, as produced by `astype('float')` on NA-free
numeric data followed by the fills in the source; non-numeric cells are
junk-mapped to 0 (the theorems never rely on that case). -/
def Val.toQ : Val → ℚ
  | .num q => q
  | _ => 0

/-- A DataFrame: named columns plus rows as cell functions. -/
structure Table where
  cols : List String
  rows : List (String → Val)

/-- pandas `drop_duplicates()` (keep the first occurrence).  Mathlib's
`List.dedup` keeps the last occurrence, so we dedup the reversed list. -/
def dropDuplicates {α : Type} [DecidableEq α] (l : List α) : List α :=
  l.reverse.dedup.reverse

theorem mem_dropDuplicates {α : Type} [DecidableEq α] {a : α} {l : List α} :
    a ∈ dropDuplicates l ↔ a ∈ l := by
  simp [dropDuplicates]

theorem nodup_dropDuplicates {α : Type} [DecidableEq α] (l : List α) :
    (dropDuplicates l).Nodup := by
  simp [dropDuplicates, List.nodup_dedup]

/-- Minimum of a rational column (junk 0 on an empty column; the source
would produce NaN there, but no claim evaluates an empty column). -/
def listMinQ : List ℚ → ℚ
  | [] => 0
  | x :: xs => xs.foldl min x

/-- Maximum of a rational column (junk 0 on an empty column). -/
def listMaxQ : List ℚ → ℚ
  | [] => 0
  | x :: xs => xs.foldl max x

theorem foldl_min_le_init (xs : List ℚ) (a : ℚ) : xs.foldl min a ≤ a := by
  induction xs generalizing a with
  | nil => simp
  | cons x xs ih =>
    calc (x :: xs).foldl min a = xs.foldl min (min a x) := rfl
    _ ≤ min a x := ih (min a x)
    _ ≤ a := min_le_left a x

theorem foldl_min_le_mem {xs : List ℚ} {b : ℚ} (h : b ∈ xs) (a : ℚ) :
    xs.foldl min a ≤ b := by
  induction xs generalizing a with
  | nil => cases h
  | cons x xs ih =>
    rcases List.mem_cons.mp h with rfl | hb
    · calc (b :: xs).foldl min a = xs.foldl min (min a b) := rfl
      _ ≤ min a b := foldl_min_le_init xs (min a b)
      _ ≤ b := min_le_right a b
    · exact ih hb (min a x)

theorem listMinQ_le {xs : List ℚ} {b : ℚ} (h : b ∈ xs) : listMinQ xs ≤ b := by
  cases xs with
  | nil => cases h
  | cons x xs =>
    rcases List.mem_cons.mp h with rfl | hb
    · exact foldl_min_le_init xs b
    · exact foldl_min_le_mem hb x

theorem init_le_foldl_max (xs : List ℚ) (a : ℚ) : a ≤ xs.foldl max a := by
  induction xs generalizing a with
  | nil => simp
  | cons x xs ih =>
    calc a ≤ max a x := le_max_left a x
    _ ≤ xs.foldl max (max a x) := ih (max a x)
    _ = (x :: xs).foldl max a := rfl

theorem mem_le_foldl_max {xs : List ℚ} {b : ℚ} (h : b ∈ xs) (a : ℚ) :
    b ≤ xs.foldl max a := by
  induction xs generalizing a with
  | nil => cases h
  | cons x xs ih =>
    rcases List.mem_cons.mp h with rfl | hb
    · calc b ≤ max a b := le_max_right a b
      _ ≤ xs.foldl max (max a b) := init_le_foldl_max xs (max a b)
    · exact ih hb (max a x)

theorem le_listMaxQ {xs : List ℚ} {b : ℚ} (h : b ∈ xs) : b ≤ listMaxQ xs := by
  cases xs with
  | nil => cases h
  | cons x xs =>
    rcases List.mem_cons.mp h with rfl | hb
    · exact init_le_foldl_max xs b
    · exact mem_le_foldl_max hb x

theorem foldl_max_map_sub (xs : List ℚ) (m a : ℚ) :
    (xs.map (fun x => x - m)).foldl max (a - m) = xs.foldl max a - m := by
  induction xs generalizing a with
  | nil => simp
  | cons x xs ih =>
    have h : max (a - m) (x - m) = max a x - m := max_sub_sub_right a x m
    calc ((x :: xs).map (fun x => x - m)).foldl max (a - m)
        = (xs.map (fun x => x - m)).foldl max (max (a - m) (x - m)) := rfl
    _ = (xs.map (fun x => x - m)).foldl max (max a x - m) := by rw [h]
    _ = xs.foldl max (max a x) - m := ih (max a x)
    _ = (x :: xs).foldl max a - m := rfl

theorem listMaxQ_map_sub {xs : List ℚ} (hne : xs ≠ []) (m : ℚ) :
    listMaxQ (xs.map (fun x => x - m)) = listMaxQ xs - m := by
  cases xs with
  | nil => cases hne rfl
  | cons x xs =>
    show (xs.map (fun x => x - m)).foldl max (x - m) = xs.foldl max x - m
    exact foldl_max_map_sub xs m x

/-- IEEE-style value produced by the float pipeline of `hot_spots`:
NaN, an infinity, or a finite rational. -/
inductive PFloat where
  | nan : PFloat
  | inf : PFloat
  | neginf : PFloat
  | val : ℚ → PFloat
deriving DecidableEq

/-- Float division as pandas performs it in `df /= df.max(axis=0)`:
division by zero yields NaN for a zero numerator and an infinity
otherwise. -/
def pdiv (x r : ℚ) : PFloat :=
  if r = 0 then (if x = 0 then .nan else if 0 < x then .inf else .neginf)
  else .val (x / r)

/-- pandas `fillna(0.0)` on a float cell: NaN becomes 0, everything else
(including infinities) is kept. -/
def pfillna : PFloat → PFloat
  | .nan => .val 0
  | x => x

/-- Squaring a float cell (`df ** 2`): NaN propagates, both infinities
square to +inf. -/
def psq : PFloat → PFloat
  | .nan => .nan
  | .inf => .inf
  | .neginf => .inf
  | .val q => .val (q ^ 2)

/-- Addition of two float cells with finite/infinite semantics. -/
def paddF : PFloat → PFloat → PFloat
  | .nan, _ => .nan
  | _, .nan => .nan
  | .inf, .neginf => .nan
  | .neginf, .inf => .nan
  | .inf, _ => .inf
  | _, .inf => .inf
  | .neginf, _ => .neginf
  | _, .neginf => .neginf
  | .val a, .val b => .val (a + b)

/-- pandas `df[[c1, c2]].sum(axis=1)` with the default `skipna=True`:
NaN cells count as 0 in the row sum. -/
def pdsum2 (a b : PFloat) : PFloat :=
  paddF (pfillna a) (pfillna b)

/-- Min-max scaling of one column exactly as `hot_spots.compute_score`
performs it: subtract the column minimum, divide by the (new) column
maximum, fill NaN with 0, then square.  The initial
`astype('float').copy(); fillna(0.0)` of the source is the identity here
because the input column is already finite (the merge feeding it was
followed by `fillna(0.0)`). -/
def scaleColumn (xs : List ℚ) : List PFloat :=
  let m := listMinQ xs
  let shifted := xs.map (fun x => x - m)
  let M := listMaxQ shifted
  shifted.map (fun x => psq (pfillna (pdiv x M)))

/-! ### Mass-change extractor (`get_mass_changesets`) -/

/-- Paths touched by a revision: the size of the revision's group in
`log[['revision', 'path']].groupby('revision').count()` (the `count()`
of the NA-free `path` column is the group size). -/
def revCount (log : Table) (v : Val) : ℕ :=
  (log.rows.filter (fun r => decide (r "revision" = v))).length

/-- Distinct revision values of the log, the group keys of the
`groupby('revision')` (pandas sorts group keys; the claims are
order-insensitive, so first-occurrence order is used). -/
def revKeys (log : Table) : List Val :=
  dropDuplicates (log.rows.map (fun r => r "revision"))

/-- Distinct (`revision`, `message`, `author`) triples:
`log[['revision', 'message', 'author']].drop_duplicates()`. -/
def massTriples (log : Table) : List (Val × Val × Val) :=
  dropDuplicates (log.rows.map (fun r => (r "revision", r "message", r "author")))

/-- One output row of `get_mass_changesets`. -/
structure MassRow where
  revision : Val
  path_count : ℕ
  message : Val
  author : Val
deriving DecidableEq

/-- `get_mass_changesets(log, min_changes)`: count paths per revision,
keep the revisions with `path_count > min_changes`, and inner-merge with
the distinct (`revision`, `message`, `author`) triples on the common
column `revision`. -/
def get_mass_changesets (log : Table) (min_changes : ℚ) : List MassRow :=
  let by_rev : List (Val × ℕ) := (revKeys log).map (fun v => (v, revCount log v))
  let massive := by_rev.filter (fun p => decide ((min_changes : ℚ) < (p.2 : ℚ)))
  massive.flatMap (fun p =>
    ((massTriples log).filter (fun t => decide (t.1 = p.1))).map (fun t =>
      { revision := p.1, path_count := p.2, message := t.2.1, author := t.2.2 }))

/-- Revisions listed in the output of `get_mass_changesets`. -/
def massRevisions (log : Table) (min_changes : ℚ) : List Val :=
  (get_mass_changesets log min_changes).map (fun r => r.revision)

/-! ### Age calculator (`ages`) -/

/-- Seconds per day; timestamps are rationals in seconds, and
`pd.Timedelta(1, unit='D')` is one day. -/
def secondsPerDay : ℚ := 86400

/-- Fixed exclusion set used when `keys` is `None`. -/
def agesExcluded : List String :=
  ["revision", "author", "date", "textmods", "action", "propmods", "message"]

/-- Default grouping keys: every log column not in the exclusion set. -/
def agesDefaultKeys (log : Table) : List String :=
  log.cols.filter (fun c => decide (c ∉ agesExcluded))

/-- Distinct grouping-key projections of the log rows (the group keys of
`log[keys + ['date']].groupby(keys)`; pandas sorts them, the claims are
order-insensitive). -/
def keyProjections (log : Table) (keys : List String) : List (List Val) :=
  dropDuplicates (log.rows.map (fun r => keys.map r))

/-- Value of an output row at a grouping column: the group key's value for
that column. -/
def keyCell (keys : List String) (k : List Val) (c : String) : Val :=
  ((keys.zip k).lookup c).getD Val.na

/-- Maximum `date` (as a timestamp) over the group of log rows whose key
projection is `k`: the `groupby(keys).max()` of the date column. -/
def groupMaxDate (log : Table) (keys : List String) (k : List Val) : ℚ :=
  listMaxQ (((log.rows.filter (fun r => decide (keys.map r = k))).map
    (fun r => (r "date").toQ)))

/-- `ages(log, keys=None, utc=None, **kwargs)`.

The Python signature has no `reference_time` parameter: a caller-supplied
`reference_time` lands in `**kwargs` and is never read, which the unused
`referenceTime?` argument models.  `now` models the value returned by
`internals.get_now()`.  `internals.py` is not part of the sources under
study; modelled from the spec: a process-wide "current time" source,
injectable for deterministic testing, hence a plain parameter here.
The `utc` flag only tells `pd.to_datetime` to treat timezone-naive inputs
as UTC; timestamps are already absolute rationals here, so it has no
observable effect.  Age is `(now - max date)` divided by one day.
If the log already has an `age` column among the keys, the assignment
`rv['age'] = ...` overwrites it instead of appending a new column. -/
def ages (log : Table) (keys? : Option (List String)) (utc? : Option Bool)
    (referenceTime? : Option ℚ) (now : ℚ) : Table :=
  let keys := keys?.getD (agesDefaultKeys log)
  let ks := keyProjections log keys
  { cols := keys ++ (if "age" ∈ keys then [] else ["age"]),
    rows := ks.map (fun k => fun c =>
      if c = "age" then Val.num ((now - groupMaxDate log keys k) / secondsPerDay)
      else keyCell keys k c) }

/-! ### Hot-spot ranker (`hot_spots`) -/

/-- Column renaming `{'code': 'complexity'}` applied to the loc table. -/
def renameCode (c : String) : String :=
  if c = "code" then "complexity" else c

/-- `c_df = loc.copy().rename(columns={'code': 'complexity'})`.  The cell
accessor serves queries at `complexity` from the old `code` column when
that column existed (we assume `loc` does not also have a pre-existing
`complexity` column, in which case pandas would keep two columns). -/
def cDf (loc : Table) : Table :=
  { cols := loc.cols.map renameCode,
    rows := loc.rows.map (fun r => fun c =>
      if c = "complexity" ∧ "code" ∈ loc.cols then r "code" else r c) }

/-- `ch_df = log[count_one_change_per + [by]].drop_duplicates()[by]
.value_counts().to_frame('changes')`: distinct projections of the log onto
the grouping columns, then occurrence counts of each `by` value.
`value_counts` sorts by count descending; the claims are order-insensitive
and first-occurrence order is used.  `by` is assumed not to be listed in
`count_one_change_per` itself. -/
def chCounts (log : Table) (countPer : List String) (byC : String) :
    List (Val × ℕ) :=
  let proj := dropDuplicates (log.rows.map (fun r => (countPer.map r, r byC)))
  let byVals := proj.map Prod.snd
  (dropDuplicates byVals).map
    (fun v => (v, (byVals.filter (fun x => decide (x = v))).length))

/-- pandas `fillna(0.0)` on a single cell: a missing value becomes the
float 0.0 (whatever the column), any other value is kept. -/
def fillZero : Val → Val
  | .na => .num 0
  | v => v

/-- The merged frame
`pd.merge(c_df, ch_df, right_index=True, left_on=by, how='outer')
.fillna(0.0)`: every `c_df` row gains a `changes` cell (its count, or NaN
when the path never changed), and every `ch_df` key absent from `c_df`
yields a new row whose join-key cell carries that key (pandas fills the
`left_on` column from the right index) and whose other cells are NaN.
The trailing `fillna(0.0)` then replaces every NaN cell — whatever the
column — with the float 0.0. -/
def hotSpotsMerged (log loc : Table) (byC : String) (countPer : List String) :
    List (String → Val) :=
  let c := cDf loc
  let ch := chCounts log countPer byC
  let leftKeys := c.rows.map (fun r => r byC)
  let leftRows := c.rows.map (fun r => fun col =>
    if col = "changes" then
      match ch.find? (fun p => decide (p.1 = r byC)) with
      | some p => Val.num p.2
      | none => Val.na
    else r col)
  let rightRows := (ch.filter (fun p => decide (p.1 ∉ leftKeys))).map
    (fun p => fun col =>
      if col = "changes" then Val.num p.2
      else if col = byC then p.1
      else Val.na)
  (leftRows ++ rightRows).map (fun r => fun col => fillZero (r col))

/-- Column names of the `hot_spots` result. -/
def hotSpotsCols (loc : Table) : List String :=
  (cDf loc).cols ++ ["changes", "complexity_score", "changes_score", "score"]

/-- The `complexity` column handed to `compute_score`. -/
def hsComplexityCol (log loc : Table) (byC : String) (countPer : List String) :
    List ℚ :=
  (hotSpotsMerged log loc byC countPer).map (fun r => (r "complexity").toQ)

/-- The `changes` column handed to `compute_score`. -/
def hsChangesCol (log loc : Table) (byC : String) (countPer : List String) :
    List ℚ :=
  (hotSpotsMerged log loc byC countPer).map (fun r => (r "changes").toQ)

/-- One output row of `hot_spots`: the merged cells plus the three score
columns (kept as float cells, as the scaling pipeline produces them). -/
structure HRow where
  cells : String → Val
  complexity_score : PFloat
  changes_score : PFloat
  score : PFloat

/-- `hot_spots(log, loc, by, count_one_change_per)` with the defaults
`by='path'`, `count_one_change_per=['revision']` supplied by the caller:
outer-merge complexity and change counts, fill missing values with 0,
min-max scale and square each of the two metric columns
(`compute_score`), and let `score` be the row sum of the two scores. -/
def hot_spots (log loc : Table) (byC : String) (countPer : List String) :
    List HRow :=
  let m := hotSpotsMerged log loc byC countPer
  let cs := scaleColumn (hsComplexityCol log loc byC countPer)
  let hs := scaleColumn (hsChangesCol log loc byC countPer)
  (m.zip (cs.zip hs)).map (fun x =>
    { cells := x.1
      complexity_score := x.2.1
      changes_score := x.2.2
      score := pdsum2 x.2.1 x.2.2 })

/-! ### Co-change analyzer (`co_changes`) -/

/-- `df = log[[on, by]].drop_duplicates()`: distinct (unit, path) pairs. -/
def ccDf (log : Table) (byC onC : String) : List (Val × Val) :=
  dropDuplicates (log.rows.map (fun r => (r onC, r byC)))

/-- `sj = pd.merge(df, df, on=on)` with the two `by` columns renamed to
`primary` / `secondary`: every ordered pair of paths sharing a unit, as
triples (unit, primary, secondary). -/
def ccSj (df : List (Val × Val)) : List (Val × Val × Val) :=
  df.flatMap (fun a =>
    (df.filter (fun b => decide (b.1 = a.1))).map (fun b => (a.1, a.2, b.2)))

/-- `sj.drop_duplicates()` applied to the self-join. -/
def ccSj2 (df : List (Val × Val)) : List (Val × Val × Val) :=
  dropDuplicates (ccSj df)

/-- Group keys of `sj.groupby(['primary', 'secondary'])`. -/
def ccKeys (df : List (Val × Val)) : List (Val × Val) :=
  dropDuplicates ((ccSj2 df).map (fun t => (t.2.1, t.2.2)))

/-- Group size of one (`primary`, `secondary`) group: the `count()` of the
NA-free unit column. -/
def ccCount (df : List (Val × Val)) (k : Val × Val) : ℕ :=
  ((ccSj2 df).filter (fun t => decide ((t.2.1, t.2.2) = k))).length

/-- The grouped counts, `sj.groupby(['primary','secondary']).count()
.reset_index()`. -/
def ccGrouped (df : List (Val × Val)) : List ((Val × Val) × ℕ) :=
  (ccKeys df).map (fun k => (k, ccCount df k))

/-- One output row of `co_changes` (in the source the two count columns
are named `<on>_cochanges` and `<on>_changes`). -/
structure CCRow where
  primary : Val
  secondary : Val
  cochanges : ℕ
  changes : ℕ
  coupling : ℚ
deriving DecidableEq

/-- Left side of the final merge:
`sj[sj['primary'] == sj['secondary']][['primary', on]]`, the self-pair
counts giving each path's total distinct-unit change count. -/
def ccLeft (df : List (Val × Val)) : List (Val × ℕ) :=
  ((ccGrouped df).filter (fun g => decide (g.1.1 = g.1.2))).map
    (fun g => (g.1.1, g.2))

/-- Right side of the final merge: `sj[sj['primary'] != sj['secondary']]`,
the non-self pair counts. -/
def ccRight (df : List (Val × Val)) : List ((Val × Val) × ℕ) :=
  (ccGrouped df).filter (fun g => decide (g.1.1 ≠ g.1.2))

/-- The inner merge on `primary` with suffixes `_changes`/`_cochanges`,
followed by the coupling ratio. -/
def ccResult (df : List (Val × Val)) : List CCRow :=
  (ccLeft df).flatMap (fun l =>
    ((ccRight df).filter (fun g => decide (g.1.1 = l.1))).map (fun g =>
      { primary := l.1, secondary := g.1.2, cochanges := g.2, changes := l.2,
        coupling := (g.2 : ℚ) / (l.2 : ℚ) }))

/-- `co_changes(log, by, on)` with the defaults `by='path'`,
`on='revision'` supplied by the caller: distinct (unit, path) pairs,
self-join on the unit, dedup, group counts, then an inner merge of the
self-pair counts (`changes`) onto the non-self pairs (`cochanges`) by
`primary`, `coupling = cochanges / changes`, sorted by coupling
descending (`sort_values` is modelled as a stable sort; the claims are
order-insensitive). -/
def co_changes (log : Table) (byC onC : String) : List CCRow :=
  List.insertionSort (fun a b : CCRow => b.coupling ≤ a.coupling)
    (ccResult (ccDf log byC onC))

/-! ### Component clusterer: cluster naming (`guess_components.__cluster_name`) -/

/-- Ordering used by `df.sort_values(by=['weight', 'feature'],
ascending=False)` on (feature, weight) pairs: weight descending, ties
broken by feature name descending. -/
def featRank (a b : String × ℚ) : Prop :=
  b.2 < a.2 ∨ (a.2 = b.2 ∧ b.1 ≤ a.1)

instance : DecidableRel featRank := fun a b => by
  unfold featRank; infer_instance

/-- `__cluster_name(center, vectorizer, n_clusters, threshold)`: pair each
feature name with its weight in the center, sort by weight then feature
name, both descending; if every weight is at most the threshold return
the empty string, otherwise keep the rows with weight strictly above the
threshold and join their feature names with `.`.  (The surrounding
`guess_components` applies this to each center of the fitted clustering
with threshold 0.4; the TF-IDF vectorizer and MiniBatchKMeans are
external library calls that produce `features` and `center`.) -/
def cluster_name (features : List String) (center : List ℚ) (threshold : ℚ) :
    String :=
  let df := features.zip center
  let sorted := List.insertionSort featRank df
  if sorted.all (fun p => decide (p.2 ≤ threshold)) then ""
  else String.intercalate "." ((sorted.filter
    (fun p => decide (threshold < p.2))).map Prod.fst)

/-- Cluster naming as the specification words it: rank the features by
weight descending with ties broken by feature name descending, keep only
the features with weight strictly greater than the threshold, yield the
empty string when none survives, and otherwise join the surviving names
with `.`. -/
def cluster_name_spec (features : List String) (center : List ℚ)
    (threshold : ℚ) : String :=
  let kept := (features.zip center).filter (fun p => decide (threshold < p.2))
  if kept.isEmpty then ""
  else String.intercalate "." ((List.insertionSort featRank kept).map Prod.fst)

/-! ### Concrete example tables (used by witnesses and counterexamples)

The log mirrors the three-row repository fixture of the test suite:
revision 1016 touches `stats.py`, revision 1018 touches `stats.py` and
`requirements.txt`.  Timestamps are rationals in seconds. -/

/-- Log row: revision 1016 touching `stats.py`. -/
def exRow1 : String → Val := fun c =>
  if c = "revision" then .str "1016"
  else if c = "author" then .str "elmotec"
  else if c = "date" then .num 200000
  else if c = "kind" then .str "file"
  else if c = "path" then .str "stats.py"
  else if c = "message" then .str "modified again"
  else .na

/-- Log row: revision 1018 touching `stats.py`. -/
def exRow2 : String → Val := fun c =>
  if c = "revision" then .str "1018"
  else if c = "author" then .str "elmotec"
  else if c = "date" then .num 100000
  else if c = "kind" then .str "file"
  else if c = "path" then .str "stats.py"
  else if c = "message" then .str "modified"
  else .na

/-- Log row: revision 1018 touching `requirements.txt`. -/
def exRow3 : String → Val := fun c =>
  if c = "revision" then .str "1018"
  else if c = "author" then .str "elmotec"
  else if c = "date" then .num 100000
  else if c = "kind" then .str "file"
  else if c = "path" then .str "requirements.txt"
  else if c = "message" then .str "modified"
  else .na

/-- Three-row example log. -/
def exLog : Table :=
  { cols := ["revision", "author", "date", "kind", "path", "message"],
    rows := [exRow1, exRow2, exRow3] }

/-- Size/complexity row for `stats.py`. -/
def exLocRow1 : String → Val := fun c =>
  if c = "language" then .str "Python"
  else if c = "path" then .str "stats.py"
  else if c = "code" then .num 100
  else .na

/-- Size/complexity row for `requirements.txt`. -/
def exLocRow2 : String → Val := fun c =>
  if c = "language" then .str "Unknown"
  else if c = "path" then .str "requirements.txt"
  else if c = "code" then .num 3
  else .na

/-- Size table covering both paths of the example log. -/
def exLoc : Table :=
  { cols := ["language", "path", "code"], rows := [exLocRow1, exLocRow2] }

/-- Size table covering only `stats.py`, so that `requirements.txt`
appears in the change counts but not in the size table. -/
def exLocSmall : Table :=
  { cols := ["language", "path", "code"], rows := [exLocRow1] }

/-- One-row log touching a single path once. -/
def exTinyLog : Table :=
  { cols := ["revision", "path"],
    rows := [fun c =>
      if c = "revision" then .str "r1"
      else if c = "path" then .str "a"
      else .na] }

/-- One-row size table for the single path of `exTinyLog`. -/
def exTinyLoc : Table :=
  { cols := ["path", "code"],
    rows := [fun c =>
      if c = "path" then .str "a"
      else if c = "code" then .num 5
      else .na] }

/-- One-row log used for the age counterexample (date at day 10). -/
def exAgeLog : Table :=
  { cols := ["path", "date"],
    rows := [fun c =>
      if c = "path" then .str "a"
      else if c = "date" then .num 864000
      else .na] }

/-! ### Ordering facts about `featRank` -/

instance : IsTotal (String × ℚ) featRank := by
  constructor
  intro a b
  rcases lt_trichotomy a.2 b.2 with h | h | h
  · exact Or.inr (Or.inl h)
  · rcases le_total a.1 b.1 with h1 | h1
    · exact Or.inr (Or.inr ⟨h.symm, h1⟩)
    · exact Or.inl (Or.inr ⟨h, h1⟩)
  · exact Or.inl (Or.inl h)

instance : IsTrans (String × ℚ) featRank := by
  constructor
  intro a b c hab hbc
  rcases hab with h1 | ⟨h1, h1'⟩
  · rcases hbc with h2 | ⟨h2, h2'⟩
    · exact Or.inl (h2.trans h1)
    · exact Or.inl (h2 ▸ h1)
  · rcases hbc with h2 | ⟨h2, h2'⟩
    · exact Or.inl (h1 ▸ h2)
    · exact Or.inr ⟨h1.trans h2, h2'.trans h1'⟩

instance : IsAntisymm (String × ℚ) featRank := by
  constructor
  intro a b hab hba
  rcases hab with h1 | ⟨h1, h1'⟩
  · rcases hba with h2 | ⟨h2, h2'⟩
    · exact absurd (h1.trans h2) (lt_irrefl _)
    · exact absurd h1 (h2 ▸ lt_irrefl _)
  · rcases hba with h2 | ⟨h2, h2'⟩
    · exact absurd h2 (h1 ▸ lt_irrefl _)
    · exact Prod.ext (le_antisymm h2' h1') h1

/-- C9: for every cluster center handed to the naming routine, the name
computed by the source (`guess_components.__cluster_name`: sort the
feature/weight pairs by weight then feature name, both descending, return
the empty string when every weight is at most the threshold, and
otherwise join the feature names with weights strictly above the
threshold with `.`) coincides with the specification's description (rank
by weight descending with ties broken by feature name descending, keep
only the features with weight strictly greater than the threshold, empty
string when none survives, else join with `.`). -/
theorem cluster_name_matches_spec (features : List String) (center : List ℚ)
    (threshold : ℚ) :
    cluster_name features center threshold
      = cluster_name_spec features center threshold := by
  unfold cluster_name cluster_name_spec
  set df := features.zip center with hdf
  by_cases hall : ∀ p ∈ df, p.2 ≤ threshold
  · have h1 : (List.insertionSort featRank df).all
        (fun p => decide (p.2 ≤ threshold)) = true := by
      rw [List.all_eq_true]
      intro p hp
      exact decide_eq_true (hall p ((List.mem_insertionSort featRank).mp hp))
    have h2 : df.filter (fun p => decide (threshold < p.2)) = [] := by
      rw [List.filter_eq_nil_iff]
      intro p hp
      simpa using not_lt.mpr (hall p hp)
    simp [h1, h2]
  · push_neg at hall
    rcases hall with ⟨p, hmem, hlt⟩
    have h1 : (List.insertionSort featRank df).all
        (fun p => decide (p.2 ≤ threshold)) = false := by
      rw [List.all_eq_false]
      exact ⟨p, (List.mem_insertionSort featRank).mpr hmem,
        by simpa using not_le.mpr hlt⟩
    have h2 : ¬ (df.filter (fun p => decide (threshold < p.2))).isEmpty = true := by
      rw [List.isEmpty_iff, List.filter_eq_nil_iff]
      intro hnil
      exact (hnil p hmem) (by simpa using hlt)
    have hkey : (List.insertionSort featRank df).filter
          (fun p => decide (threshold < p.2))
        = List.insertionSort featRank
            (df.filter (fun p => decide (threshold < p.2))) := by
      apply List.eq_of_perm_of_sorted (r := featRank)
      · exact ((List.perm_insertionSort featRank df).filter _).trans
          (List.perm_insertionSort featRank _).symm
      · exact (List.sorted_insertionSort featRank df).filter _
      · exact List.sorted_insertionSort featRank _
    simp only [h1, Bool.false_eq_true, if_false, h2, if_false, hkey]

/-! ### Claims C6 and C7: the age calculator -/

/-- C6 (amended): the age calculator's signature has no `reference_time`
parameter; a caller-supplied `reference_time` is swallowed by `**kwargs`
and ignored, so the output is identical with and without it, and every
group's age is computed from the process-wide injectable current-time
source (`internals.get_now()`, the `now` parameter) as
`(now - max date) / one day`. -/
theorem ages_reference_time_ignored (log : Table) (keys? : Option (List String))
    (u : Option Bool) (rt now : ℚ) :
    ages log keys? u (some rt) now = ages log keys? u none now
    ∧ ∀ r ∈ (ages log keys? u (some rt) now).rows,
        ∃ k ∈ keyProjections log (keys?.getD (agesDefaultKeys log)),
          r "age" = Val.num
            ((now - groupMaxDate log (keys?.getD (agesDefaultKeys log)) k)
              / secondsPerDay) := by
  refine ⟨rfl, ?_⟩
  intro r hr
  rcases List.mem_map.mp hr with ⟨k, hk, rfl⟩
  exact ⟨k, hk, by simp⟩

/-- C6 counterexample: with the log's only date at day 10 (864000 s), a
supplied `reference_time` at day 20 (1728000 s) and the current-time
source at day 12 (1036800 s), the computed age is 2 days — not the
10 days that `(reference_time - max date)` demands — so supplying
`reference_time` does not make ages relative to it. -/
theorem ages_reference_time_counterexample :
    ((ages exAgeLog none none (some 1728000) 1036800).rows.getD 0
        (fun _ => Val.na)) "age" = Val.num 2
    ∧ ((1728000 : ℚ) - 864000) / secondsPerDay = 10
    ∧ Val.num 2 ≠ Val.num 10 := by
  refine ⟨by with_unfolding_all decide, by norm_num [secondsPerDay],
    by with_unfolding_all decide⟩

/-- C6 witness: the amended theorem applied to the concrete one-row log. -/
theorem ages_reference_time_ignored_witness :
    ∃ k ∈ keyProjections exAgeLog
        ((none : Option (List String)).getD (agesDefaultKeys exAgeLog)),
      ((ages exAgeLog none none (some 1728000) 1036800).rows.get
          ⟨0, by decide⟩) "age" = Val.num
        ((1036800 - groupMaxDate exAgeLog
            ((none : Option (List String)).getD (agesDefaultKeys exAgeLog)) k)
          / secondsPerDay) :=
  (ages_reference_time_ignored exAgeLog none none 1728000 1036800).2 _
    (List.get_mem _ _ _)

/-- C7: with `keys=None` the age calculator groups by exactly the log
columns outside the fixed exclusion set, takes the maximum date per
group, and returns a table whose columns are exactly those keys plus
`age`, the `date` column being dropped: every output row realises one
distinct key projection with `age = (now - group max date) / one day`,
and every distinct key projection is realised by an output row.  (The
log is assumed not to carry a column named `age` itself, which the
assignment `rv['age'] = ...` would overwrite.) -/
theorem ages_default_keys_shape (log : Table) (u : Option Bool)
    (rt? : Option ℚ) (now : ℚ) (hage : "age" ∉ log.cols) :
    (ages log none u rt? now).cols = agesDefaultKeys log ++ ["age"]
    ∧ "date" ∉ (ages log none u rt? now).cols
    ∧ (∀ r ∈ (ages log none u rt? now).rows,
        ∃ k ∈ keyProjections log (agesDefaultKeys log),
          (∀ c ∈ agesDefaultKeys log, r c = keyCell (agesDefaultKeys log) k c)
          ∧ r "age" = Val.num
              ((now - groupMaxDate log (agesDefaultKeys log) k) / secondsPerDay))
    ∧ (∀ k ∈ keyProjections log (agesDefaultKeys log),
        ∃ r ∈ (ages log none u rt? now).rows,
          (∀ c ∈ agesDefaultKeys log, r c = keyCell (agesDefaultKeys log) k c)
          ∧ r "age" = Val.num
              ((now - groupMaxDate log (agesDefaultKeys log) k) / secondsPerDay)) := by
  have hkeys : "age" ∉ agesDefaultKeys log := by
    intro h
    exact hage (List.mem_of_mem_filter h)
  have hdate : "date" ∉ agesDefaultKeys log := by
    intro h
    have := List.of_mem_filter h
    simp [agesExcluded] at this
  refine ⟨?_, ?_, ?_, ?_⟩
  · show agesDefaultKeys log
        ++ (if "age" ∈ agesDefaultKeys log then [] else ["age"])
      = agesDefaultKeys log ++ ["age"]
    rw [if_neg hkeys]
  · show "date" ∉ agesDefaultKeys log
        ++ (if "age" ∈ agesDefaultKeys log then [] else ["age"])
    rw [if_neg hkeys]
    intro h
    rcases List.mem_append.mp h with h | h
    · exact hdate h
    · simp at h
  · intro r hr
    rcases List.mem_map.mp hr with ⟨k, hk, rfl⟩
    refine ⟨k, hk, ?_, by simp⟩
    intro c hc
    have hne : ¬ c = "age" := fun h => hkeys (h ▸ hc)
    simp [hne]
  · intro k hk
    refine ⟨_, List.mem_map.mpr ⟨k, hk, rfl⟩, ?_, by simp⟩
    intro c hc
    have hne : ¬ c = "age" := fun h => hkeys (h ▸ hc)
    simp [hne]

/-- C7 witness: on the example log (columns revision, author, date, kind,
path, message) the output columns are the default keys `kind`, `path`
plus `age`. -/
theorem ages_default_keys_shape_witness :
    (ages exLog none none none 286400).cols = agesDefaultKeys exLog ++ ["age"] :=
  (ages_default_keys_shape exLog none none 286400 (by decide)).1

/-! ### Claims C4 and C5: the mass-change extractor -/

/-- Membership characterization of the `get_mass_changesets` output
(shared helper): a row is produced exactly when its `path_count` is the
revision's group size, that count is strictly above the threshold, and
its (`revision`, `message`, `author`) triple is one of the distinct
triples of the log. -/
theorem mem_get_mass_changesets {log : Table} {m : ℚ} {row : MassRow} :
    row ∈ get_mass_changesets log m
    ↔ row.path_count = revCount log row.revision
      ∧ m < (row.path_count : ℚ)
      ∧ (row.revision, row.message, row.author) ∈ massTriples log := by
  unfold get_mass_changesets
  constructor
  · intro h
    rcases List.mem_flatMap.mp h with ⟨p, hp, hrow⟩
    rcases List.mem_filter.mp hp with ⟨hp', hcond⟩
    rcases List.mem_map.mp hp' with ⟨v, hv, rfl⟩
    rcases List.mem_map.mp hrow with ⟨t, ht, rfl⟩
    rcases List.mem_filter.mp ht with ⟨ht', htEq⟩
    have htEq' : t.1 = v := of_decide_eq_true htEq
    have hcond' : m < ((revCount log v : ℕ) : ℚ) := of_decide_eq_true hcond
    refine ⟨by simp, by simpa using hcond', ?_⟩
    have : ((v, t.2.1, t.2.2) : Val × Val × Val) = t := by
      rw [← htEq']
    simpa [this] using ht'
  · intro ⟨h1, h2, h3⟩
    have hrev : row.revision ∈ revKeys log := by
      rcases mem_dropDuplicates.mp h3 with h3'
      rcases List.mem_map.mp h3' with ⟨r, hr, hEq⟩
      have : r "revision" = row.revision := congrArg Prod.fst hEq
      exact mem_dropDuplicates.mpr (List.mem_map.mpr ⟨r, hr, this⟩)
    refine List.mem_flatMap.mpr
      ⟨(row.revision, revCount log row.revision), ?_, ?_⟩
    · refine List.mem_filter.mpr ⟨List.mem_map.mpr ⟨row.revision, hrev, rfl⟩, ?_⟩
      exact decide_eq_true (by rw [← h1]; exact_mod_cast h2)
    · refine List.mem_map.mpr ⟨(row.revision, row.message, row.author), ?_, ?_⟩
      · exact List.mem_filter.mpr ⟨h3, decide_eq_true rfl⟩
      · cases row with
        | mk rev pc msg auth => simpa using h1.symm

/-- C4: raising the threshold can only shrink the revision set: for
`t < t'`, every revision reported at threshold `t'` is also reported at
threshold `t`. -/
theorem mass_changes_threshold_monotone (log : Table) (t t' : ℚ) (h : t < t')
    (v : Val) (hv : v ∈ massRevisions log t') : v ∈ massRevisions log t := by
  rcases List.mem_map.mp hv with ⟨row, hrow, rfl⟩
  rcases mem_get_mass_changesets.mp hrow with ⟨h1, h2, h3⟩
  exact List.mem_map.mpr
    ⟨row, mem_get_mass_changesets.mpr ⟨h1, lt_trans h h2, h3⟩, rfl⟩

/-- C4 witness: on the example log (revision 1016 touches one path,
revision 1018 touches two), revision 1018 — reported at threshold 1 — is
also reported at threshold 0. -/
theorem mass_changes_threshold_monotone_witness :
    Val.str "1018" ∈ massRevisions exLog 0 :=
  mass_changes_threshold_monotone exLog 0 1 (by norm_num) (Val.str "1018")
    (by with_unfolding_all decide)

/-- C5: the extractor keeps exactly the rows whose `path_count` is the
revision's per-revision row count, strictly greater than `min_changes`,
inner-joined on `revision` against the distinct
(`revision`, `message`, `author`) pairs of the log; consequently the
reported revisions are exactly the log revisions whose row count exceeds
the threshold. -/
theorem mass_changesets_characterization (log : Table) (m : ℚ) :
    (∀ row : MassRow, row ∈ get_mass_changesets log m
      ↔ row.path_count = revCount log row.revision
        ∧ m < (row.path_count : ℚ)
        ∧ (row.revision, row.message, row.author) ∈ massTriples log)
    ∧ (∀ v : Val, v ∈ massRevisions log m
        ↔ v ∈ revKeys log ∧ m < (revCount log v : ℚ)) := by
  refine ⟨fun row => mem_get_mass_changesets, fun v => ?_⟩
  constructor
  · intro hv
    rcases List.mem_map.mp hv with ⟨row, hrow, rfl⟩
    rcases mem_get_mass_changesets.mp hrow with ⟨h1, h2, h3⟩
    have hrev : row.revision ∈ revKeys log := by
      rcases List.mem_map.mp (mem_dropDuplicates.mp h3) with ⟨r, hr, hEq⟩
      exact mem_dropDuplicates.mpr
        (List.mem_map.mpr ⟨r, hr, congrArg Prod.fst hEq⟩)
    exact ⟨hrev, by rw [← h1]; exact h2⟩
  · intro ⟨hv, hcnt⟩
    rcases List.mem_map.mp (mem_dropDuplicates.mp hv) with ⟨r, hr, hEq⟩
    refine List.mem_map.mpr
      ⟨{ revision := v, path_count := revCount log v,
         message := r "message", author := r "author" },
       mem_get_mass_changesets.mpr ⟨rfl, hcnt, ?_⟩, rfl⟩
    exact mem_dropDuplicates.mpr
      (List.mem_map.mpr ⟨r, hr, by rw [hEq]⟩)

/-- C5 witness: on the example log with threshold 1, the row
(revision 1018, path_count 2, message "modified", author "elmotec") is
produced. -/
theorem mass_changesets_characterization_witness :
    ({ revision := Val.str "1018", path_count := 2,
       message := Val.str "modified", author := Val.str "elmotec" } : MassRow)
      ∈ get_mass_changesets exLog 1 :=
  ((mass_changesets_characterization exLog 1).1 _).mpr
    ⟨by with_unfolding_all decide, by norm_num, by with_unfolding_all decide⟩

/-! ### Claims C1, C8, C10: the hot-spot ranker -/

/-- Value of one cell after the min-max scaling pipeline of
`compute_score`, as a function of its column: subtract the column
minimum, divide by the maximum of the shifted column, fill NaN, square. -/
def scaleEntry (xs : List ℚ) (x : ℚ) : PFloat :=
  psq (pfillna (pdiv (x - listMinQ xs)
    (listMaxQ (xs.map (fun y => y - listMinQ xs)))))

theorem scaleColumn_eq_map (xs : List ℚ) :
    scaleColumn xs = xs.map (scaleEntry xs) := by
  simp only [scaleColumn, List.map_map]
  rfl

theorem scaleEntry_bounds {xs : List ℚ} {x : ℚ} (hx : x ∈ xs) :
    ∃ q, scaleEntry xs x = .val q ∧ 0 ≤ q ∧ q ≤ 1 := by
  have hm : listMinQ xs ≤ x := listMinQ_le hx
  have hsub : 0 ≤ x - listMinQ xs := sub_nonneg.mpr hm
  have hM : x - listMinQ xs
      ≤ listMaxQ (xs.map (fun y => y - listMinQ xs)) :=
    le_listMaxQ (List.mem_map.mpr ⟨x, hx, rfl⟩)
  by_cases h0 : listMaxQ (xs.map (fun y => y - listMinQ xs)) = 0
  · have hz : x - listMinQ xs = 0 := le_antisymm (h0 ▸ hM) hsub
    refine ⟨0, ?_, le_refl 0, zero_le_one⟩
    simp [scaleEntry, hz, pdiv, h0, pfillna, psq]
  · have hMpos : 0 < listMaxQ (xs.map (fun y => y - listMinQ xs)) :=
      lt_of_le_of_ne (le_trans hsub hM) (Ne.symm h0)
    refine ⟨((x - listMinQ xs) / listMaxQ (xs.map (fun y => y - listMinQ xs))) ^ 2,
      ?_, sq_nonneg _, ?_⟩
    · simp [scaleEntry, pdiv, h0, pfillna, psq]
    · have h1 : (x - listMinQ xs) / listMaxQ (xs.map (fun y => y - listMinQ xs)) ≤ 1 :=
        (div_le_one hMpos).mpr hM
      have h2 : 0 ≤ (x - listMinQ xs) / listMaxQ (xs.map (fun y => y - listMinQ xs)) :=
        div_nonneg hsub (le_of_lt hMpos)
      exact pow_le_one₀ h2 h1

theorem scaleEntry_min {xs : List ℚ} {x : ℚ} (hmin : x = listMinQ xs) :
    scaleEntry xs x = .val 0 := by
  have hz : x - listMinQ xs = 0 := by rw [hmin]; ring
  by_cases h0 : listMaxQ (xs.map (fun y => y - listMinQ xs)) = 0
  · simp [scaleEntry, hz, pdiv, h0, pfillna, psq]
  · simp [scaleEntry, hz, pdiv, h0, pfillna, psq]

theorem scaleEntry_max {xs : List ℚ} {x : ℚ} (hx : x ∈ xs)
    (hlt : listMinQ xs < listMaxQ xs) (hmax : x = listMaxQ xs) :
    scaleEntry xs x = .val 1 := by
  have hne : xs ≠ [] := List.ne_nil_of_mem hx
  have hM : listMaxQ (xs.map (fun y => y - listMinQ xs))
      = listMaxQ xs - listMinQ xs := listMaxQ_map_sub hne (listMinQ xs)
  have hMne : listMaxQ xs - listMinQ xs ≠ 0 :=
    ne_of_gt (sub_pos.mpr hlt)
  have : scaleEntry xs x
      = psq (pfillna (pdiv (listMaxQ xs - listMinQ xs)
          (listMaxQ xs - listMinQ xs))) := by
    rw [scaleEntry, hM, hmax]
  rw [this, pdiv, if_neg hMne, div_self hMne]
  simp [pfillna, psq]

theorem scaleEntry_const {xs : List ℚ} {x : ℚ} (hx : x ∈ xs)
    (hc : listMinQ xs = listMaxQ xs) : scaleEntry xs x = .val 0 := by
  have h1 : listMinQ xs ≤ x := listMinQ_le hx
  have h2 : x ≤ listMaxQ xs := le_listMaxQ hx
  exact scaleEntry_min (le_antisymm (hc ▸ h2) h1)

/-- Under a constant column the scaling division is literally 0/0, i.e.
NaN before the `fillna(0.0)` step. -/
theorem scaleEntry_const_div_nan {xs : List ℚ} {x : ℚ} (hx : x ∈ xs)
    (hc : listMinQ xs = listMaxQ xs) :
    pdiv (x - listMinQ xs) (listMaxQ (xs.map (fun y => y - listMinQ xs)))
      = PFloat.nan := by
  have h1 : listMinQ xs ≤ x := listMinQ_le hx
  have h2 : x ≤ listMaxQ xs := le_listMaxQ hx
  have hxm : x = listMinQ xs := le_antisymm (hc ▸ h2) h1
  have hz : x - listMinQ xs = 0 := by rw [← hxm]; ring
  have hne : xs ≠ [] := List.ne_nil_of_mem hx
  have hM0 : listMaxQ (xs.map (fun y => y - listMinQ xs)) = 0 := by
    rw [listMaxQ_map_sub hne, ← hc]
    ring
  rw [hz, hM0, pdiv]
  simp

/-- A generic zip-of-mapped-columns identity used to rewrite the rowwise
score assembly of `hot_spots`. -/
theorem zip_map_map {α β γ δ : Type} (as : List α) (f : α → β) (g : α → γ)
    (F : α × β × γ → δ) :
    (as.zip ((as.map f).zip (as.map g))).map F
      = as.map (fun a => F (a, f a, g a)) := by
  induction as with
  | nil => rfl
  | cons a as ih => simp only [List.map_cons, List.zip_cons_cons, ih]

/-- Rowwise description of the `hot_spots` output: each merged row is
paired with the scaled scores of its own column entries (the columnwise
`compute_score` assignment aligns by position). -/
theorem hot_spots_eq_map (log loc : Table) (byC : String) (cper : List String) :
    hot_spots log loc byC cper
      = (hotSpotsMerged log loc byC cper).map (fun r =>
          { cells := r
            complexity_score := scaleEntry (hsComplexityCol log loc byC cper)
              ((r "complexity").toQ)
            changes_score := scaleEntry (hsChangesCol log loc byC cper)
              ((r "changes").toQ)
            score := pdsum2
              (scaleEntry (hsComplexityCol log loc byC cper) ((r "complexity").toQ))
              (scaleEntry (hsChangesCol log loc byC cper) ((r "changes").toQ)) }) := by
  unfold hot_spots
  rw [scaleColumn_eq_map, scaleColumn_eq_map]
  rw [show hsComplexityCol log loc byC cper
      = (hotSpotsMerged log loc byC cper).map (fun r => (r "complexity").toQ) from rfl,
    show hsChangesCol log loc byC cper
      = (hotSpotsMerged log loc byC cper).map (fun r => (r "changes").toQ) from rfl,
    List.map_map, List.map_map]
  exact zip_map_map _ _ _ _

/-- C1 (amended): every row of the hot-spot output has
`complexity_score` and `changes_score` in [0, 1] and `score` in [0, 2];
a row whose metric value is the column minimum scores 0 on that metric,
and — provided the metric column is not constant (its minimum is
strictly below its maximum) — a row whose metric value is the column
maximum scores 1 on that metric even after squaring.  (On a constant
column the maximum coincides with the minimum and the row scores 0, see
the counterexample.) -/
theorem hot_spot_score_bounds (log loc : Table) (byC : String)
    (cper : List String) (hr : HRow)
    (hmem : hr ∈ hot_spots log loc byC cper) :
    (∃ q, hr.complexity_score = .val q ∧ 0 ≤ q ∧ q ≤ 1)
    ∧ (∃ q, hr.changes_score = .val q ∧ 0 ≤ q ∧ q ≤ 1)
    ∧ (∃ q, hr.score = .val q ∧ 0 ≤ q ∧ q ≤ 2)
    ∧ ((hr.cells "complexity").toQ = listMinQ (hsComplexityCol log loc byC cper)
        → hr.complexity_score = .val 0)
    ∧ (listMinQ (hsComplexityCol log loc byC cper)
          < listMaxQ (hsComplexityCol log loc byC cper)
        → (hr.cells "complexity").toQ = listMaxQ (hsComplexityCol log loc byC cper)
        → hr.complexity_score = .val 1)
    ∧ ((hr.cells "changes").toQ = listMinQ (hsChangesCol log loc byC cper)
        → hr.changes_score = .val 0)
    ∧ (listMinQ (hsChangesCol log loc byC cper)
          < listMaxQ (hsChangesCol log loc byC cper)
        → (hr.cells "changes").toQ = listMaxQ (hsChangesCol log loc byC cper)
        → hr.changes_score = .val 1) := by
  rw [hot_spots_eq_map] at hmem
  rcases List.mem_map.mp hmem with ⟨r, hrm, rfl⟩
  have hcmem : (r "complexity").toQ ∈ hsComplexityCol log loc byC cper :=
    List.mem_map.mpr ⟨r, hrm, rfl⟩
  have hhmem : (r "changes").toQ ∈ hsChangesCol log loc byC cper :=
    List.mem_map.mpr ⟨r, hrm, rfl⟩
  rcases scaleEntry_bounds hcmem with ⟨q1, hq1, hq1a, hq1b⟩
  rcases scaleEntry_bounds hhmem with ⟨q2, hq2, hq2a, hq2b⟩
  refine ⟨⟨q1, hq1, hq1a, hq1b⟩, ⟨q2, hq2, hq2a, hq2b⟩,
    ⟨q1 + q2, ?_, by positivity, by linarith⟩, ?_, ?_, ?_, ?_⟩
  · show pdsum2 _ _ = _
    rw [hq1, hq2]
    simp [pdsum2, pfillna, paddF]
  · intro hmin
    exact scaleEntry_min hmin
  · intro hlt hmax
    exact scaleEntry_max hcmem hlt hmax
  · intro hmin
    exact scaleEntry_min hmin
  · intro hlt hmax
    exact scaleEntry_max hhmem hlt hmax

/-- C1 counterexample: a one-path input makes the complexity column the
constant `[5]`; its only row holds the column maximum yet its
`complexity_score` is 0, not the 1 the claim demands for a
maximum-holding path. -/
theorem hot_spot_max_score_counterexample :
    (((hot_spots exTinyLog exTinyLoc "path" ["revision"]).getD 0
          ⟨fun _ => Val.na, .nan, .nan, .nan⟩).cells "complexity").toQ
      = listMaxQ (hsComplexityCol exTinyLog exTinyLoc "path" ["revision"])
    ∧ ((hot_spots exTinyLog exTinyLoc "path" ["revision"]).getD 0
          ⟨fun _ => Val.na, .nan, .nan, .nan⟩).complexity_score = PFloat.val 0
    ∧ PFloat.val 0 ≠ PFloat.val 1 := by
  refine ⟨by with_unfolding_all decide, by with_unfolding_all decide,
    by with_unfolding_all decide⟩

/-- C1 witness: on the two-path example, the first output row (for
`stats.py`, which holds the maxima of both metric columns) — in
particular its score lies in [0, 2]. -/
theorem hot_spot_score_bounds_witness :
    ∃ q, ((hot_spots exLog exLoc "path" ["revision"]).get
        ⟨0, by with_unfolding_all decide⟩).score = .val q ∧ 0 ≤ q ∧ q ≤ 2 :=
  (hot_spot_score_bounds exLog exLoc "path" ["revision"] _
    (List.get_mem _ _ _)).2.2.1

/-- C8: when the complexity column or the changes column is constant
after the merge (its minimum equals its maximum), the scaling division
is 0/0 — NaN, not an error — and after the fill every row's scaled score
for that column is 0. -/
theorem constant_column_scores_zero (log loc : Table) (byC : String)
    (cper : List String) (hr : HRow)
    (hmem : hr ∈ hot_spots log loc byC cper) :
    (listMinQ (hsComplexityCol log loc byC cper)
        = listMaxQ (hsComplexityCol log loc byC cper)
      → pdiv ((hr.cells "complexity").toQ
            - listMinQ (hsComplexityCol log loc byC cper))
          (listMaxQ ((hsComplexityCol log loc byC cper).map
            (fun y => y - listMinQ (hsComplexityCol log loc byC cper))))
          = PFloat.nan
        ∧ hr.complexity_score = .val 0)
    ∧ (listMinQ (hsChangesCol log loc byC cper)
        = listMaxQ (hsChangesCol log loc byC cper)
      → pdiv ((hr.cells "changes").toQ
            - listMinQ (hsChangesCol log loc byC cper))
          (listMaxQ ((hsChangesCol log loc byC cper).map
            (fun y => y - listMinQ (hsChangesCol log loc byC cper))))
          = PFloat.nan
        ∧ hr.changes_score = .val 0) := by
  rw [hot_spots_eq_map] at hmem
  rcases List.mem_map.mp hmem with ⟨r, hrm, rfl⟩
  have hcmem : (r "complexity").toQ ∈ hsComplexityCol log loc byC cper :=
    List.mem_map.mpr ⟨r, hrm, rfl⟩
  have hhmem : (r "changes").toQ ∈ hsChangesCol log loc byC cper :=
    List.mem_map.mpr ⟨r, hrm, rfl⟩
  constructor
  · intro hc
    exact ⟨scaleEntry_const_div_nan hcmem hc, scaleEntry_const hcmem hc⟩
  · intro hc
    exact ⟨scaleEntry_const_div_nan hhmem hc, scaleEntry_const hhmem hc⟩

/-- C10 (amended): a path that appears in the change counts but not in
the size table still yields an output row; its merge-key cell (`by`)
carries the path value — pandas fills the `left_on` column from the
right index — its `changes` cell carries the count, and every other
column, in particular every column inherited from the size table such as
`language`, is filled with the float 0.0 because the `fillna(0.0)` after
the outer merge applies to all columns. -/
theorem merge_fill_right_only_rows (log loc : Table) (byC : String)
    (cper : List String) (p : Val) (n : ℕ)
    (hch : (p, n) ∈ chCounts log cper byC)
    (habs : p ∉ (cDf loc).rows.map (fun r => r byC))
    (hbyC : byC ≠ "changes") (hp : p ≠ Val.na) :
    ∃ hr ∈ hot_spots log loc byC cper,
      hr.cells byC = p
      ∧ hr.cells "changes" = Val.num n
      ∧ ∀ c, c ≠ byC → c ≠ "changes" → hr.cells c = Val.num 0 := by
  have hmem : (fun col => fillZero
      (if col = "changes" then Val.num n
        else if col = byC then p
        else Val.na)) ∈ hotSpotsMerged log loc byC cper := by
    unfold hotSpotsMerged
    refine List.mem_map.mpr ⟨_, List.mem_append.mpr (Or.inr ?_), rfl⟩
    exact List.mem_map.mpr
      ⟨(p, n), List.mem_filter.mpr ⟨hch, decide_eq_true habs⟩, rfl⟩
  rw [hot_spots_eq_map]
  refine ⟨_, List.mem_map.mpr ⟨_, hmem, rfl⟩, ?_, ?_, ?_⟩
  · show fillZero (if byC = "changes" then Val.num n
        else if byC = byC then p else Val.na) = p
    rw [if_neg hbyC, if_pos rfl]
    cases p with
    | str s => rfl
    | num q => rfl
    | na => exact absurd rfl hp
  · show fillZero (if "changes" = "changes" then Val.num n
        else if "changes" = byC then p else Val.na) = Val.num n
    rw [if_pos rfl]
    rfl
  · intro c hc1 hc2
    show fillZero (if c = "changes" then Val.num n
        else if c = byC then p else Val.na) = Val.num 0
    rw [if_neg hc2, if_neg hc1]
    rfl

/-- C10 counterexample to the claim as stated: `path` is itself a column
inherited from the size table, and on the right-only row for
`requirements.txt` it holds the path string, not 0.0 — so not every
size-table column of such a row is filled with 0.0. -/
theorem merge_fill_key_column_counterexample :
    "path" ∈ (cDf exLocSmall).cols
    ∧ ((hot_spots exLog exLocSmall "path" ["revision"]).getD 1
          ⟨fun _ => Val.na, .nan, .nan, .nan⟩).cells "path"
        = Val.str "requirements.txt"
    ∧ ((hot_spots exLog exLocSmall "path" ["revision"]).getD 1
          ⟨fun _ => Val.na, .nan, .nan, .nan⟩).cells "language"
        = Val.num 0
    ∧ Val.str "requirements.txt" ≠ Val.num 0 := by
  refine ⟨by decide, by with_unfolding_all decide,
    by with_unfolding_all decide, by decide⟩

/-- C10 witness: on the example where the size table only lists
`stats.py`, the change-only path `requirements.txt` yields a row with
its path in the `path` cell, its count in `changes`, and 0.0 in every
other column. -/
theorem merge_fill_right_only_rows_witness :
    ∃ hr ∈ hot_spots exLog exLocSmall "path" ["revision"],
      hr.cells "path" = Val.str "requirements.txt"
      ∧ hr.cells "changes" = Val.num ((1 : ℕ) : ℚ)
      ∧ ∀ c, c ≠ "path" → c ≠ "changes" → hr.cells c = Val.num 0 :=
  merge_fill_right_only_rows exLog exLocSmall "path" ["revision"]
    (Val.str "requirements.txt") 1 (by with_unfolding_all decide)
    (by decide) (by decide) (by decide)

/-- C8 witness: on the one-path input both merged columns are constant
and the single row's `complexity_score` is 0. -/
theorem constant_column_scores_zero_witness :
    listMinQ (hsComplexityCol exTinyLog exTinyLoc "path" ["revision"])
      = listMaxQ (hsComplexityCol exTinyLog exTinyLoc "path" ["revision"])
    ∧ ((hot_spots exTinyLog exTinyLoc "path" ["revision"]).get
        ⟨0, by with_unfolding_all decide⟩).complexity_score = .val 0 :=
  ⟨by with_unfolding_all decide,
    ((constant_column_scores_zero exTinyLog exTinyLoc "path" ["revision"] _
      (List.get_mem _ _ _)).1 (by with_unfolding_all decide)).2⟩

/-! ### Claims C2 and C3: the co-change analyzer -/

theorem mem_ccSj {df : List (Val × Val)} {t : Val × Val × Val} :
    t ∈ ccSj df ↔ (t.1, t.2.1) ∈ df ∧ (t.1, t.2.2) ∈ df := by
  unfold ccSj
  constructor
  · intro h
    rcases List.mem_flatMap.mp h with ⟨a, ha, hb⟩
    rcases List.mem_map.mp hb with ⟨b, hbf, rfl⟩
    rcases List.mem_filter.mp hbf with ⟨hbmem, hbeq⟩
    have hbeq' : b.1 = a.1 := of_decide_eq_true hbeq
    rcases a with ⟨u, x⟩
    rcases b with ⟨u', y⟩
    cases hbeq'
    exact ⟨ha, hbmem⟩
  · rcases t with ⟨u, x, y⟩
    intro ⟨h1, h2⟩
    refine List.mem_flatMap.mpr ⟨(u, x), h1, ?_⟩
    refine List.mem_map.mpr ⟨(u, y), ?_, rfl⟩
    exact List.mem_filter.mpr ⟨h2, decide_eq_true rfl⟩

theorem mem_ccSj2 {df : List (Val × Val)} {t : Val × Val × Val} :
    t ∈ ccSj2 df ↔ (t.1, t.2.1) ∈ df ∧ (t.1, t.2.2) ∈ df :=
  mem_dropDuplicates.trans mem_ccSj

theorem mem_ccKeys {df : List (Val × Val)} {k : Val × Val} :
    k ∈ ccKeys df ↔ ∃ u, (u, k.1) ∈ df ∧ (u, k.2) ∈ df := by
  unfold ccKeys
  rw [mem_dropDuplicates]
  constructor
  · intro h
    rcases List.mem_map.mp h with ⟨t, ht, rfl⟩
    rcases t with ⟨u, x, y⟩
    exact ⟨u, mem_ccSj2.mp ht⟩
  · rcases k with ⟨x, y⟩
    intro ⟨u, h1, h2⟩
    exact List.mem_map.mpr ⟨(u, x, y), mem_ccSj2.mpr ⟨h1, h2⟩, rfl⟩

theorem ccCount_eq_card (df : List (Val × Val)) (p s : Val) :
    ccCount df (p, s)
      = (((ccSj2 df).filter (fun t => decide ((t.2.1, t.2.2) = (p, s)))).map
          (fun t => t.1)).toFinset.card := by
  have hnd : ((ccSj2 df).filter
      (fun t => decide ((t.2.1, t.2.2) = (p, s)))).Nodup :=
    (nodup_dropDuplicates _).filter _
  have hinj : ∀ x ∈ (ccSj2 df).filter
        (fun t => decide ((t.2.1, t.2.2) = (p, s))),
      ∀ y ∈ (ccSj2 df).filter (fun t => decide ((t.2.1, t.2.2) = (p, s))),
      x.1 = y.1 → x = y := by
    intro x hx y hy hxy
    have hx' : (x.2.1, x.2.2) = (p, s) :=
      of_decide_eq_true (List.mem_filter.mp hx).2
    have hy' : (y.2.1, y.2.2) = (p, s) :=
      of_decide_eq_true (List.mem_filter.mp hy).2
    rcases x with ⟨u, a, b⟩
    rcases y with ⟨u', a', b'⟩
    cases hxy
    have ha : a = p := congrArg Prod.fst hx'
    have hb : b = s := congrArg Prod.snd hx'
    have ha' : a' = p := congrArg Prod.fst hy'
    have hb' : b' = s := congrArg Prod.snd hy'
    rw [ha, hb, ha', hb']
  have hndmap : (((ccSj2 df).filter
      (fun t => decide ((t.2.1, t.2.2) = (p, s)))).map (fun t => t.1)).Nodup :=
    List.Nodup.map_on hinj hnd
  rw [List.toFinset_card_of_nodup hndmap, List.length_map]
  rfl

theorem mem_ccUnits {df : List (Val × Val)} {p s u : Val} :
    u ∈ (((ccSj2 df).filter (fun t => decide ((t.2.1, t.2.2) = (p, s)))).map
        (fun t => t.1)).toFinset
    ↔ ((u, p, s) : Val × Val × Val) ∈ ccSj2 df := by
  rw [List.mem_toFinset]
  constructor
  · intro h
    rcases List.mem_map.mp h with ⟨t, ht, rfl⟩
    rcases List.mem_filter.mp ht with ⟨htm, hte⟩
    have hte' : (t.2.1, t.2.2) = (p, s) := of_decide_eq_true hte
    rcases t with ⟨u', a, b⟩
    rw [Prod.mk.injEq] at hte'
    rw [← hte'.1, ← hte'.2]
    exact htm
  · intro h
    exact List.mem_map.mpr
      ⟨(u, p, s), List.mem_filter.mpr ⟨h, decide_eq_true rfl⟩, rfl⟩

/-- The raw co-change counts are symmetric: both count the distinct
units containing both paths. -/
theorem ccCount_symm (df : List (Val × Val)) (p s : Val) :
    ccCount df (p, s) = ccCount df (s, p) := by
  rw [ccCount_eq_card, ccCount_eq_card]
  congr 1
  apply Finset.ext
  intro u
  simp only [mem_ccUnits, mem_ccSj2]
  exact ⟨fun h => ⟨h.2, h.1⟩, fun h => ⟨h.2, h.1⟩⟩

/-- A path's co-change count with any other path is at most its
self-pair count (its total distinct-unit change count). -/
theorem ccCount_le_self (df : List (Val × Val)) (p s : Val) :
    ccCount df (p, s) ≤ ccCount df (p, p) := by
  rw [ccCount_eq_card, ccCount_eq_card]
  apply Finset.card_le_card
  intro u hu
  rw [mem_ccUnits] at hu ⊢
  rw [mem_ccSj2] at hu ⊢
  exact ⟨hu.1, hu.1⟩

theorem ccCount_pos {df : List (Val × Val)} {k : Val × Val}
    (hk : k ∈ ccKeys df) : 0 < ccCount df k := by
  rcases List.mem_map.mp (mem_dropDuplicates.mp hk) with ⟨t, ht, hEq⟩
  have hmem : t ∈ (ccSj2 df).filter
      (fun t' => decide ((t'.2.1, t'.2.2) = k)) :=
    List.mem_filter.mpr ⟨ht, decide_eq_true hEq⟩
  exact List.length_pos.mpr (List.ne_nil_of_mem hmem)

theorem mem_ccGrouped {df : List (Val × Val)} {g : (Val × Val) × ℕ} :
    g ∈ ccGrouped df ↔ g.1 ∈ ccKeys df ∧ g.2 = ccCount df g.1 := by
  unfold ccGrouped
  constructor
  · intro h
    rcases List.mem_map.mp h with ⟨k, hk, rfl⟩
    exact ⟨hk, rfl⟩
  · rcases g with ⟨k, n⟩
    intro h
    have hk : k ∈ ccKeys df := h.1
    have hn : n = ccCount df k := h.2
    subst hn
    exact List.mem_map.mpr ⟨k, hk, rfl⟩

/-- Membership characterization of the co-change result rows (before the
final sort, which preserves membership). -/
theorem mem_ccResult {df : List (Val × Val)} {row : CCRow} :
    row ∈ ccResult df
    ↔ (row.primary, row.primary) ∈ ccKeys df
      ∧ (row.primary, row.secondary) ∈ ccKeys df
      ∧ row.primary ≠ row.secondary
      ∧ row.cochanges = ccCount df (row.primary, row.secondary)
      ∧ row.changes = ccCount df (row.primary, row.primary)
      ∧ row.coupling = (row.cochanges : ℚ) / (row.changes : ℚ) := by
  unfold ccResult
  constructor
  · intro h
    rcases List.mem_flatMap.mp h with ⟨l, hl, hrow⟩
    rcases List.mem_map.mp hrow with ⟨g, hg, rfl⟩
    rcases List.mem_filter.mp hg with ⟨hg', hgl⟩
    have hgl' : g.1.1 = l.1 := of_decide_eq_true hgl
    rcases List.mem_filter.mp hg' with ⟨hgG, hgne⟩
    have hgne' : g.1.1 ≠ g.1.2 := of_decide_eq_true hgne
    rcases List.mem_map.mp hl with ⟨g0, hg0, rfl⟩
    rcases List.mem_filter.mp hg0 with ⟨hg0G, hg0self⟩
    have hg0self' : g0.1.1 = g0.1.2 := of_decide_eq_true hg0self
    rcases mem_ccGrouped.mp hgG with ⟨hgK, hgC⟩
    rcases mem_ccGrouped.mp hg0G with ⟨hg0K, hg0C⟩
    rcases g with ⟨⟨kp, ks⟩, n⟩
    rcases g0 with ⟨⟨mp, ms⟩, n0⟩
    simp only at hgl' hgne' hg0self' hgK hgC hg0K hg0C
    cases hgl'
    cases hg0self'
    refine ⟨hg0K, hgK, hgne', hgC, hg0C, rfl⟩
  · intro ⟨hpp, hps, hne, hco, hch, hcoup⟩
    refine List.mem_flatMap.mpr
      ⟨(row.primary, ccCount df (row.primary, row.primary)), ?_, ?_⟩
    · unfold ccLeft
      refine List.mem_map.mpr
        ⟨((row.primary, row.primary), ccCount df (row.primary, row.primary)),
          ?_, rfl⟩
      exact List.mem_filter.mpr
        ⟨mem_ccGrouped.mpr ⟨hpp, rfl⟩, decide_eq_true rfl⟩
    · refine List.mem_map.mpr
        ⟨((row.primary, row.secondary),
            ccCount df (row.primary, row.secondary)), ?_, ?_⟩
      · refine List.mem_filter.mpr ⟨?_, decide_eq_true rfl⟩
        unfold ccRight
        exact List.mem_filter.mpr
          ⟨mem_ccGrouped.mpr ⟨hps, rfl⟩, decide_eq_true hne⟩
      · cases row with
        | mk p s co ch cp =>
          simp only at hco hch hcoup
          rw [CCRow.mk.injEq]
          exact ⟨rfl, rfl, hco.symm, hch.symm, by rw [hcoup, hco, hch]⟩

/-- The final descending sort of `co_changes` only permutes rows, so
membership in the output and in the unsorted merge result agree. -/
theorem co_changes_mem_iff {log : Table} {byC onC : String} {row : CCRow} :
    row ∈ co_changes log byC onC ↔ row ∈ ccResult (ccDf log byC onC) := by
  unfold co_changes
  exact (List.perm_insertionSort _ _).mem_iff

/-- Membership in the merge result transfers into the sorted output. -/
theorem mem_co_changes_of {log : Table} {byC onC : String} {row : CCRow}
    (h : row ∈ ccResult (ccDf log byC onC)) : row ∈ co_changes log byC onC :=
  co_changes_mem_iff.mpr h

/-- Co-change row `requirements.txt → stats.py` of the example log. -/
def exCCRow1 : CCRow :=
  { primary := Val.str "requirements.txt", secondary := Val.str "stats.py",
    cochanges := 1, changes := 1, coupling := 1 }

/-- Co-change row `stats.py → requirements.txt` of the example log. -/
def exCCRow2 : CCRow :=
  { primary := Val.str "stats.py", secondary := Val.str "requirements.txt",
    cochanges := 1, changes := 2, coupling := 1 / 2 }

/-- C2: every row of the co-change output has coupling strictly greater
than 0 and at most 1, and the coupling equals the row's cochange count
divided by the change count of its primary path. -/
theorem coupling_in_unit_interval (log : Table) (byC onC : String)
    (row : CCRow) (hmem : row ∈ co_changes log byC onC) :
    0 < row.coupling ∧ row.coupling ≤ 1
    ∧ row.coupling = (row.cochanges : ℚ) / (row.changes : ℚ) := by
  have hmem' : row ∈ ccResult (ccDf log byC onC) := co_changes_mem_iff.mp hmem
  rcases mem_ccResult.mp hmem' with ⟨hpp, hps, hne, hco, hch, hcoup⟩
  have h1 : 0 < ccCount (ccDf log byC onC) (row.primary, row.secondary) :=
    ccCount_pos hps
  have h2 : ccCount (ccDf log byC onC) (row.primary, row.secondary)
      ≤ ccCount (ccDf log byC onC) (row.primary, row.primary) :=
    ccCount_le_self _ _ _
  have hcopos : 0 < row.cochanges := hco ▸ h1
  have hchpos : 0 < row.changes := by
    rw [hch]
    exact lt_of_lt_of_le h1 h2
  have hle : row.cochanges ≤ row.changes := by
    rw [hco, hch]
    exact h2
  refine ⟨?_, ?_, hcoup⟩
  · rw [hcoup]
    exact div_pos (by exact_mod_cast hcopos) (by exact_mod_cast hchpos)
  · rw [hcoup, div_le_one (by exact_mod_cast hchpos)]
    exact_mod_cast hle

/-- C2 witness: the row `stats.py → requirements.txt` of the example log
(changed together in revision 1018, while `stats.py` changed twice) has
coupling 1/2 ∈ (0, 1]. -/
theorem coupling_in_unit_interval_witness :
    0 < exCCRow2.coupling ∧ exCCRow2.coupling ≤ 1
    ∧ exCCRow2.coupling = (exCCRow2.cochanges : ℚ) / (exCCRow2.changes : ℚ) :=
  coupling_in_unit_interval exLog "path" "revision" exCCRow2
    (mem_co_changes_of (mem_ccResult.mpr
      ⟨by decide, by decide, by decide, by decide, by decide,
        by show (1 : ℚ) / 2 = ((1 : ℕ) : ℚ) / ((2 : ℕ) : ℚ); norm_num⟩))

/-- C3: for every ordered pair present in the co-change output there is a
row for the reversed pair with the same cochange count; the coupling
values of the two directions, however, can differ, as the concrete
example log shows (coupling 1 in one direction, 1/2 in the other). -/
theorem cochanges_symmetric (log : Table) (byC onC : String) :
    (∀ row ∈ co_changes log byC onC,
      ∃ row' ∈ co_changes log byC onC,
        row'.primary = row.secondary ∧ row'.secondary = row.primary
        ∧ row'.cochanges = row.cochanges)
    ∧ (∃ r1 ∈ co_changes exLog "path" "revision",
        ∃ r2 ∈ co_changes exLog "path" "revision",
          r1.primary = r2.secondary ∧ r1.secondary = r2.primary
          ∧ r1.coupling ≠ r2.coupling) := by
  constructor
  · intro row hmem
    have hmem' : row ∈ ccResult (ccDf log byC onC) := co_changes_mem_iff.mp hmem
    rcases mem_ccResult.mp hmem' with ⟨hpp, hps, hne, hco, hch, hcoup⟩
    rcases mem_ccKeys.mp hps with ⟨u, h1, h2⟩
    have hss : (row.secondary, row.secondary) ∈ ccKeys (ccDf log byC onC) :=
      mem_ccKeys.mpr ⟨u, h2, h2⟩
    have hsp : (row.secondary, row.primary) ∈ ccKeys (ccDf log byC onC) :=
      mem_ccKeys.mpr ⟨u, h2, h1⟩
    refine ⟨{ primary := row.secondary, secondary := row.primary,
              cochanges := ccCount (ccDf log byC onC)
                (row.secondary, row.primary),
              changes := ccCount (ccDf log byC onC)
                (row.secondary, row.secondary),
              coupling :=
                ((ccCount (ccDf log byC onC) (row.secondary, row.primary) : ℚ)
                  / (ccCount (ccDf log byC onC)
                      (row.secondary, row.secondary) : ℚ)) },
      ?_, rfl, rfl, ?_⟩
    · exact mem_co_changes_of
        (mem_ccResult.mpr ⟨hss, hsp, Ne.symm hne, rfl, rfl, rfl⟩)
    · show ccCount (ccDf log byC onC) (row.secondary, row.primary)
        = row.cochanges
      rw [ccCount_symm, ← hco]
  · refine ⟨exCCRow1, mem_co_changes_of (mem_ccResult.mpr
        ⟨by decide, by decide, by decide, by decide, by decide,
          by show (1 : ℚ) = ((1 : ℕ) : ℚ) / ((1 : ℕ) : ℚ); norm_num⟩),
      exCCRow2, mem_co_changes_of (mem_ccResult.mpr
        ⟨by decide, by decide, by decide, by decide, by decide,
          by show (1 : ℚ) / 2 = ((1 : ℕ) : ℚ) / ((2 : ℕ) : ℚ); norm_num⟩),
      rfl, rfl, ?_⟩
    show (1 : ℚ) ≠ 1 / 2
    norm_num

/-- C3 witness: applying the symmetry direction to the concrete row
`stats.py → requirements.txt` of the example log. -/
theorem cochanges_symmetric_witness :
    ∃ row' ∈ co_changes exLog "path" "revision",
      row'.primary = exCCRow2.secondary ∧ row'.secondary = exCCRow2.primary
      ∧ row'.cochanges = exCCRow2.cochanges :=
  (cochanges_symmetric exLog "path" "revision").1 exCCRow2
    (mem_co_changes_of (mem_ccResult.mpr
      ⟨by decide, by decide, by decide, by decide, by decide,
        by show (1 : ℚ) / 2 = ((1 : ℕ) : ℚ) / ((2 : ℕ) : ℚ); norm_num⟩))

end Codemetrics
